import Mathlib

/-!
Verification of the batch-partitioning core of `copyright_batcher.py`.

The Python source is shallowly embedded: metadata records are association
lists of JSON values, `strptime` is modelled directive-by-directive with the
regex alternatives CPython's `_strptime` uses, datetimes are a record of
calendar fields plus a UTC offset, the spreadsheet manifest is a partial map
from `(row, column)` to cell values, and the thread pool's completion order
is an arbitrary permutation of the submitted indices.
-/

set_option maxHeartbeats 1000000

deriving instance DecidableEq for Except

namespace CopyrightBatcher

/-! ## Python string helpers (over `List Char`) -/

/-- Digit value of a character. -/
def dv (c : Char) : Nat := c.toNat - '0'.toNat

/-- Python `str.split(sep)` for a single-character separator:
`"a/b".split("/") = ["a","b"]`, `"".split("/") = [""]`. -/
def splitChar (sep : Char) : List Char → List (List Char)
  | [] => [[]]
  | c :: cs =>
    match splitChar sep cs with
    | [] => [[]]
    | h :: t => if c = sep then [] :: h :: t else (c :: h) :: t

/-- `date_str.split('.')[0]` (line 108): the part before the first `'.'`. -/
def stripFrac (s : String) : String :=
  match splitChar '.' s.toList with
  | h :: _ => ⟨h⟩
  | [] => ""

/-- Python `image.replace('.jpg', '')` (lines 141 and 212): removes every
occurrence of the substring `".jpg"`, scanning left to right. -/
def stripJpg : List Char → List Char
  | '.' :: 'j' :: 'p' :: 'g' :: rest => stripJpg rest
  | c :: rest => c :: stripJpg rest
  | [] => []

/-- The metadata key both `process_image` (line 141) and `process_images`
(line 212) use to look up an image's record. -/
def jpgKey (image : String) : String := ⟨stripJpg image.toList⟩

/-- A Python/JSON metadata value: a string, or any non-string value (for
`extract_date` only its truthiness matters). -/
inductive PyVal where
  | str (s : String)
  | nonstr (truthy : Bool)
deriving DecidableEq, Repr

/-- Python `dict.get` over an association list. -/
def pyGet {α : Type} : List (String × α) → String → Option α
  | [], _ => none
  | (k, v) :: rest, key => if k = key then some v else pyGet rest key

/-! ## The `strptime` model

CPython's `_strptime` compiles a format string to a regex (with
`re.IGNORECASE`) and requires the whole input to match.  Each directive
below lists its regex alternatives in the order the alternation tries them,
and `matchDirs` backtracks through them exactly as the regex engine does. -/

/-- One `strptime` format directive. -/
inductive Directive where
  | lit (c : Char)
  | ws
  | Y
  | mo
  | dy
  | H
  | Mi
  | S
  | z
deriving DecidableEq, Repr

/-- Fields collected by a `strptime` match, with CPython's defaults
(year 1900, January 1, midnight, no timezone). -/
structure Acc where
  year : Nat
  month : Nat
  day : Nat
  hour : Nat
  minute : Nat
  second : Nat
  off : Option Int
deriving DecidableEq, Repr

def Acc.init : Acc := ⟨1900, 1, 1, 0, 0, 0, none⟩

def Acc.setY (a : Acc) (v : Nat) : Acc := ⟨v, a.month, a.day, a.hour, a.minute, a.second, a.off⟩
def Acc.setMo (a : Acc) (v : Nat) : Acc := ⟨a.year, v, a.day, a.hour, a.minute, a.second, a.off⟩
def Acc.setDy (a : Acc) (v : Nat) : Acc := ⟨a.year, a.month, v, a.hour, a.minute, a.second, a.off⟩
def Acc.setH (a : Acc) (v : Nat) : Acc := ⟨a.year, a.month, a.day, v, a.minute, a.second, a.off⟩
def Acc.setMi (a : Acc) (v : Nat) : Acc := ⟨a.year, a.month, a.day, a.hour, v, a.second, a.off⟩
def Acc.setS (a : Acc) (v : Nat) : Acc := ⟨a.year, a.month, a.day, a.hour, a.minute, v, a.off⟩
def Acc.setZ (a : Acc) (v : Int) : Acc := ⟨a.year, a.month, a.day, a.hour, a.minute, a.second, some v⟩

/-- Regex `\d`: an ASCII digit, stated on code points. -/
def isDig (c : Char) : Bool := decide (48 ≤ c.toNat) && decide (c.toNat ≤ 57)

/-- Candidates for `%Y` (regex `\d\d\d\d`): exactly four digits. -/
def candY : List Char → List (Nat × List Char)
  | a :: b :: c :: e :: rest =>
    if isDig a ∧ isDig b ∧ isDig c ∧ isDig e then
      [(1000 * dv a + 100 * dv b + 10 * dv c + dv e, rest)]
    else []
  | _ => []

/-- Candidates for a one-or-two digit numeric directive.  The two-digit
regex alternatives come first (they cover exactly the values
`lo2 ≤ v ≤ hi2` written with two digits), then the one-digit alternative
(`lo1 ≤ v ≤ hi1`), matching `_strptime`'s alternation order for
`%m` (`1[0-2]|0[1-9]|[1-9]`), `%d` (`3[01]|[12]\d|0[1-9]|[1-9]`),
`%H` (`2[0-3]|[0-1]\d|\d`) and `%M`/`%S` (`[0-5]\d|\d`). -/
def candNum (lo2 hi2 lo1 hi1 : Nat) : List Char → List (Nat × List Char)
  | [] => []
  | [a] => if isDig a ∧ lo1 ≤ dv a ∧ dv a ≤ hi1 then [(dv a, [])] else []
  | a :: b :: rest2 =>
    (if isDig a ∧ isDig b ∧ lo2 ≤ 10 * dv a + dv b ∧ 10 * dv a + dv b ≤ hi2 then
      [(10 * dv a + dv b, rest2)]
    else []) ++
    (if isDig a ∧ lo1 ≤ dv a ∧ dv a ≤ hi1 then [(dv a, b :: rest2)] else [])

/-- The characters Python's regex `\s` matches (ASCII range). -/
def isPyWs (c : Char) : Bool :=
  c == ' ' || c == '\t' || c == '\n' || c == '\r' || c == Char.ofNat 11 || c == Char.ofNat 12

/-- Candidates for a whitespace run (a space in the format compiles to the
regex `\s+`), longest match first. -/
def candWs (s : List Char) : List (List Char) :=
  (List.range (s.takeWhile isPyWs).length).map fun i => s.drop ((s.takeWhile isPyWs).length - i)

/-- Greedy optional colon (`:?` in the `%z` regex): consuming it is tried
first. -/
def optColon : List Char → List (List Char)
  | ':' :: rest => [rest, ':' :: rest]
  | s => [s]

/-- Exactly two digits with value ≤ 59 (regex `[0-5]\d`). -/
def candTwo59 : List Char → List (Nat × List Char)
  | a :: b :: rest =>
    if isDig a ∧ isDig b ∧ 10 * dv a + dv b ≤ 59 then [(10 * dv a + dv b, rest)] else []
  | _ => []

/-- Candidates for `%z` (regex `[+-]\d\d:?[0-5]\d(:?[0-5]\d)?|(?-i:Z)`),
offsets in seconds.  Fractional offset seconds cannot occur because the
input was already cut at the first `'.'`. -/
def candZ : List Char → List (Int × List Char)
  | [] => []
  | c :: rest =>
    if c = '+' ∨ c = '-' then
      match rest with
      | a :: b :: rest2 =>
        if isDig a ∧ isDig b then
          let hh := 10 * dv a + dv b
          let sign : Int := if c = '-' then -1 else 1
          (optColon rest2).flatMap fun s1 =>
            (candTwo59 s1).flatMap fun p =>
              ((optColon p.2).flatMap fun s3 =>
                (candTwo59 s3).map fun q =>
                  (sign * (3600 * (hh : Int) + 60 * (p.1 : Int) + (q.1 : Int)), q.2)) ++
              [(sign * (3600 * (hh : Int) + 60 * (p.1 : Int)), p.2)]
        else []
      | _ => []
    else if c = 'Z' then [((0 : Int), rest)] else []

/-- Depth-first matcher for a directive list: alternatives in regex order
with full backtracking; the whole input must be consumed (`strptime`'s
`unconverted data remains` check).  Literals match case-insensitively
(the compiled regex carries `re.IGNORECASE`). -/
def matchDirs : List Directive → List Char → Acc → Option Acc
  | [], [], acc => some acc
  | [], _ :: _, _ => none
  | .lit c :: fs, s, acc =>
    match s with
    | a :: rest => if a.toLower = c.toLower then matchDirs fs rest acc else none
    | [] => none
  | .ws :: fs, s, acc => (candWs s).findSome? fun s1 => matchDirs fs s1 acc
  | .Y :: fs, s, acc => (candY s).findSome? fun p => matchDirs fs p.2 (acc.setY p.1)
  | .mo :: fs, s, acc => (candNum 1 12 1 9 s).findSome? fun p => matchDirs fs p.2 (acc.setMo p.1)
  | .dy :: fs, s, acc => (candNum 1 31 1 9 s).findSome? fun p => matchDirs fs p.2 (acc.setDy p.1)
  | .H :: fs, s, acc => (candNum 0 23 0 9 s).findSome? fun p => matchDirs fs p.2 (acc.setH p.1)
  | .Mi :: fs, s, acc => (candNum 0 59 0 9 s).findSome? fun p => matchDirs fs p.2 (acc.setMi p.1)
  | .S :: fs, s, acc => (candNum 0 59 0 9 s).findSome? fun p => matchDirs fs p.2 (acc.setS p.1)
  | .z :: fs, s, acc => (candZ s).findSome? fun p => matchDirs fs p.2 (acc.setZ p.1)

def isLeap (y : Nat) : Bool := (y % 4 == 0 && y % 100 != 0) || y % 400 == 0

def daysInMonth (y m : Nat) : Nat :=
  if m = 2 then (if isLeap y then 29 else 28)
  else if m = 4 ∨ m = 6 ∨ m = 9 ∨ m = 11 then 30 else 31

/-- A parsed datetime: calendar fields plus a UTC offset in seconds. -/
structure PDateTime where
  year : Nat
  month : Nat
  day : Nat
  hour : Nat
  minute : Nat
  second : Nat
  off : Int
deriving DecidableEq, Repr

def offOk : Option Int → Bool
  | none => true
  | some o => decide (o.natAbs < 86400)

/-- The validation CPython performs after the regex match: `datetime`
construction (year ≥ MINYEAR, day within the month — regex bounds already
force month ≤ 12, hour ≤ 23, minute/second ≤ 59) and `timezone`
construction (|offset| < 24 hours).  Failure raises `ValueError`, which the
caller's `except ValueError` turns into a parse failure for this format.
A naive result is given offset 0, mirroring
`date.replace(tzinfo=timezone.utc)` at line 111; an aware result keeps its
parsed offset, and both are `strftime`-formatted from their unchanged
calendar fields. -/
def validate (acc : Acc) : Option PDateTime :=
  if 1 ≤ acc.year ∧ acc.day ≤ daysInMonth acc.year acc.month ∧ offOk acc.off then
    some ⟨acc.year, acc.month, acc.day, acc.hour, acc.minute, acc.second, acc.off.getD 0⟩
  else none

/-- `"%Y:%m:%d"` -/
def fmtA : List Directive := [.Y, .lit ':', .mo, .lit ':', .dy]

/-- `"%Y:%m:%d %H:%M:%S"` -/
def fmtB : List Directive :=
  [.Y, .lit ':', .mo, .lit ':', .dy, .ws, .H, .lit ':', .Mi, .lit ':', .S]

/-- `"%Y:%m:%d %H:%M:%S%z"` -/
def fmtC : List Directive :=
  [.Y, .lit ':', .mo, .lit ':', .dy, .ws, .H, .lit ':', .Mi, .lit ':', .S, .z]

/-- `"%Y-%m-%dT%H:%M:%S"` -/
def fmtD : List Directive :=
  [.Y, .lit '-', .mo, .lit '-', .dy, .lit 'T', .H, .lit ':', .Mi, .lit ':', .S]

/-- `"%Y-%m-%dT%H:%M:%S%z"` -/
def fmtE : List Directive :=
  [.Y, .lit '-', .mo, .lit '-', .dy, .lit 'T', .H, .lit ':', .Mi, .lit ':', .S, .z]

/-- `date_formats` (lines 99–101), in order. -/
def date_formats : List (List Directive) := [fmtA, fmtB, fmtC, fmtD, fmtE]

/-- The inner format loop for one tag value (lines 106–117): formats are
tried in order and the first success is kept (`break`). -/
def tryFormats (s : List Char) : Option PDateTime :=
  date_formats.findSome? fun f => (matchDirs f s Acc.init).bind validate

/-- The parse performed at line 108 for one tag value:
`datetime.strptime(date_str.split('.')[0], date_format)`. -/
def parseValue (s : String) : Option PDateTime := tryFormats (stripFrac s).toList

/-! ## `extract_date` -/

/-- `date_tags` (lines 95–98), in priority order. -/
def date_tags : List String :=
  ["EXIF:DateTimeOriginal", "EXIF:CreateDate", "IPTC:DateCreated",
   "IPTC:DigitalCreationDate", "XMP:CreateDate", "XMP:DateCreated"]

/-- A metadata record: a JSON object mapping tag names to values. -/
abbrev Meta := List (String × PyVal)

inductive PyExn where
  | attributeError
  | indexError
deriving DecidableEq, Repr

/-- The date-collection loop of `extract_date` (lines 103–117): for each tag
in order, a truthy string value contributes its first successful parse (if
any); a falsy value (missing tag, `""`, falsy non-string) is skipped; a
truthy non-string raises `AttributeError` at `date_str.split('.')`, which
`except ValueError` does not catch, so it propagates. -/
def scanTags (m : Meta) : List String → Except PyExn (List PDateTime)
  | [] => .ok []
  | tag :: rest =>
    match pyGet m tag with
    | none => scanTags m rest
    | some (.nonstr truthy) => if truthy then .error .attributeError else scanTags m rest
    | some (.str s) =>
      if s = "" then scanTags m rest
      else
        match parseValue s with
        | some dt => (scanTags m rest).map (dt :: ·)
        | none => scanTags m rest

/-- Days since the civil epoch (Hinnant's `days_from_civil`, without the
constant epoch shift): strictly monotone in the calendar date, which is all
comparison needs. -/
def civilDays (y m d : Nat) : Nat :=
  let ys := y - (if m ≤ 2 then 1 else 0)
  let era := ys / 400
  let yoe := ys - era * 400
  let doy := (153 * (if 2 < m then m - 3 else m + 9) + 2) / 5 + (d - 1)
  let doe := yoe * 365 + yoe / 4 - yoe / 100 + doy
  era * 146097 + doe

/-- The instant a datetime denotes, in seconds: aware datetimes compare by
their UTC-adjusted value. -/
def toKey (dt : PDateTime) : Int :=
  86400 * (civilDays dt.year dt.month dt.day : Int) + 3600 * (dt.hour : Int) +
    60 * (dt.minute : Int) + (dt.second : Int) - dt.off

/-- Python `max` over datetimes (line 120): a strictly later element
replaces the current one, so ties keep the earliest-listed element. -/
def pyMax : List PDateTime → Option PDateTime
  | [] => none
  | h :: t => some (t.foldl (fun a x => if toKey a < toKey x then x else a) h)

/-- The character for one decimal digit. -/
def digitChar (k : Nat) : Char :=
  if k = 0 then '0' else if k = 1 then '1' else if k = 2 then '2' else if k = 3 then '3'
  else if k = 4 then '4' else if k = 5 then '5' else if k = 6 then '6' else if k = 7 then '7'
  else if k = 8 then '8' else '9'

/-- Decimal digits of `n`, most significant first (fueled helper). -/
def natCharsAux : Nat → Nat → List Char
  | 0, _ => []
  | fuel + 1, n =>
    if n < 10 then [digitChar n]
    else natCharsAux fuel (n / 10) ++ [digitChar (n % 10)]

def natChars (n : Nat) : List Char := natCharsAux (n + 1) n

/-- Zero-pad the decimal form of `n` to width `w` (`%m` pads to 2, `%Y` to
4, per the Python `strftime` documentation). -/
def padNat (w n : Nat) : List Char :=
  List.replicate (w - (natChars n).length) '0' ++ natChars n

/-- `latest_date.strftime("%m/%Y")` (line 122). -/
def formatMY (dt : PDateTime) : String := ⟨padNat 2 dt.month ++ '/' :: padNat 4 dt.year⟩

/-- The environment default for `DEFAULT_DATE` (line 32); the configured
value is a parameter `dflt` below. -/
def DEFAULT_DATE : String := "08/2024"

def BATCH_SIZE : Nat := 750

def SUB_BATCH_SIZE : Nat := 150

/-- `extract_date` (lines 93–125): collect the parses of all tags, return
the latest formatted as `%m/%Y`, or the configured default when none
parsed; an exception from the scan propagates. -/
def extract_date (dflt : String) (m : Meta) : Except PyExn String :=
  match scanTags m date_tags with
  | .error e => .error e
  | .ok dates =>
    match pyMax dates with
    | some latest => .ok (formatMY latest)
    | none => .ok dflt

/-! ## Chunking (`process_images` lines 220–224, `process_batch` lines 185–187) -/

/-- Python `range(start, stop, step)` for a positive step: the
`⌈(stop - start) / step⌉` values `start, start + step, …` below `stop`. -/
def pyRange (start stop step : Nat) : List Nat :=
  List.range' start ((stop - start + step - 1) / step) step

/-- The year-batch loop (lines 221–223): window
`year_images[i:i+BATCH_SIZE]` paired with
`batch_number = i // BATCH_SIZE + 1`. -/
def year_batches (year_images : List String) : List (Nat × List String) :=
  (pyRange 0 year_images.length BATCH_SIZE).map fun i =>
    (i / BATCH_SIZE + 1, (year_images.drop i).take BATCH_SIZE)

/-- The sub-batch loop (lines 185–198): window `images[j:j+SUB_BATCH_SIZE]`
into directory `sub_batch_{j // SUB_BATCH_SIZE + 1}`; an item is copied
into the directory only when its resized file exists in the batch
directory (`continue` at line 193 otherwise), so the directory holds the
window filtered by existence. -/
def sub_batches (images : List String) (resized : String → Bool) : List (Nat × List String) :=
  (pyRange 0 images.length SUB_BATCH_SIZE).map fun j =>
    (j / SUB_BATCH_SIZE + 1, ((images.drop j).take SUB_BATCH_SIZE).filter resized)

/-! ## Year grouping (`process_images` lines 209–217) -/

/-- Append `image` to `year`'s group in the dict, keeping insertion order. -/
def insertAppend (year image : String) :
    List (String × List String) → List (String × List String)
  | [] => [(year, [image])]
  | (y, l) :: rest =>
    if y = year then (y, l ++ [image]) :: rest else (y, l) :: insertAppend year image rest

/-- Lines 212–214 for one image: resolve the bucket, then
`date_str.split("/")[1]`; `[1]` raises `IndexError` when the bucket
contains no `'/'`. -/
def resolveYear (dflt : String) (store : List (String × Meta)) (image : String) :
    Except PyExn String :=
  match extract_date dflt ((pyGet store (jpgKey image)).getD []) with
  | .error e => .error e
  | .ok ds =>
    match (splitChar '/' ds.toList).get? 1 with
    | some y => .ok ⟨y⟩
    | none => .error .indexError

/-- The grouping loop (lines 211–217) over the sorted image list, starting
from accumulator `acc` (initially `[]`). -/
def groupImages (dflt : String) (store : List (String × Meta)) :
    List String → List (String × List String) → Except PyExn (List (String × List String))
  | [], acc => .ok acc
  | image :: rest, acc =>
    match resolveYear dflt store image with
    | .error e => .error e
    | .ok y => groupImages dflt store rest (insertAppend y image acc)

/-! ## The manifest and `process_image` (lines 138–163, 172–180) -/

inductive CellVal where
  | num (n : Nat)
  | str (s : String)
deriving DecidableEq, Repr

/-- The shared openpyxl worksheet: a partial map from `(row, column)` to
cell values; the loaded template is an arbitrary initial map. -/
abbrev Manifest := Nat × Nat → Option CellVal

def setCell (ws : Manifest) (r c : Nat) (v : CellVal) : Manifest :=
  fun p => if p = (r, c) then some v else ws p

/-- Outcome of `resize_image` for one source image (the external image
codec and filesystem): success, `FileNotFoundError`, or any other
exception. -/
inductive ResizeOut where
  | ok
  | notFound
  | raised
deriving DecidableEq, Repr

/-- How one `process_image` call ends: `return True`, `return False`, or an
exception propagating out (re-raised by `future.result()` and caught at
lines 179–180, where the batch loop continues). -/
inductive PRes where
  | retTrue
  | retFalse
  | raisedExn
deriving DecidableEq, Repr

/-- The six cell writes of lines 157–162, all in row `idx + 11`. -/
def writeRow (ws : Manifest) (idx : Nat) (image dateStr : String) : Manifest :=
  setCell (setCell (setCell (setCell (setCell (setCell ws
    (idx + 11) 1 (.num (idx + 1)))
    (idx + 11) 2 (.str image))
    (idx + 11) 3 (.str image))
    (idx + 11) 4 (.str dateStr))
    (idx + 11) 5 (.str image))
    (idx + 11) 6 (.str "")

/-- `process_image` (lines 138–163): metadata lookup with `{}` default,
date extraction (any exception caught → `return False`, no cells
written), resize (`FileNotFoundError` caught → `return False`; any other
exception propagates, no cells written), then the six manifest cells and
`return True`. -/
def process_image (dflt : String) (store : List (String × Meta))
    (resize : String → ResizeOut) (image : String) (idx : Nat) (ws : Manifest) :
    Manifest × PRes :=
  match extract_date dflt ((pyGet store (jpgKey image)).getD []) with
  | .error _ => (ws, .retFalse)
  | .ok metadata_date =>
    match resize image with
    | .notFound => (ws, .retFalse)
    | .raised => (ws, .raisedExn)
    | .ok => (writeRow ws idx image metadata_date, .retTrue)

/-- The result of one item (it does not depend on the worksheet or on
`idx`). -/
def itemRes (dflt : String) (store : List (String × Meta))
    (resize : String → ResizeOut) (image : String) : PRes :=
  match extract_date dflt ((pyGet store (jpgKey image)).getD []) with
  | .error _ => .retFalse
  | .ok _ =>
    match resize image with
    | .notFound => .retFalse
    | .raised => .raisedExn
    | .ok => .retTrue

/-- The worker pool of `process_batch` (lines 172–180): every enumerated
item is submitted, and the worksheet mutations land in the completion
order `order` of the futures. -/
def process_batch_ws (dflt : String) (store : List (String × Meta))
    (resize : String → ResizeOut) (images : List String) (order : List Nat)
    (ws0 : Manifest) : Manifest :=
  order.foldl
    (fun ws idx => (process_image dflt store resize (images.getD idx "") idx ws).1) ws0

/-! ## Chunking lemmas -/

theorem pyRange_length (n B : Nat) : (pyRange 0 n B).length = (n + B - 1) / B := by
  simp [pyRange]

theorem pyRange_getElem (n B w : Nat) (h : w < (pyRange 0 n B).length) :
    (pyRange 0 n B)[w] = B * w := by
  simp only [pyRange] at h ⊢
  rw [List.getElem_range']
  omega

theorem ceil_chunk_succ (n B : Nat) (hB : 0 < B) (hn : 0 < n) :
    (n + B - 1) / B = (n - B + B - 1) / B + 1 := by
  rcases Nat.le_total n B with h | h
  · have h1 : (n + B - 1) / B = 1 := Nat.div_eq_of_lt_le (by omega) (by omega)
    have h2 : n - B = 0 := by omega
    have h3 : (0 + B - 1) / B = 0 := Nat.div_eq_of_lt (by omega)
    rw [h1, h2, h3]
  · have e1 : n - B + B - 1 = n - 1 := by omega
    have e2 : n + B - 1 = (n - 1) + B := by omega
    rw [e1, e2, Nat.add_div_right _ hB]

theorem pyRange_zero_nil (B : Nat) (hB : 0 < B) : pyRange 0 0 B = [] :=
  List.length_eq_zero.mp (by rw [pyRange_length]; exact Nat.div_eq_of_lt (by omega))

theorem pyRange_zero_cons (n B : Nat) (hB : 0 < B) (hn : 0 < n) :
    pyRange 0 n B = 0 :: (pyRange 0 (n - B) B).map (B + ·) := by
  unfold pyRange
  rw [Nat.sub_zero, Nat.sub_zero, ceil_chunk_succ n B hB hn, List.range'_succ,
    List.map_add_range', Nat.zero_add, Nat.add_zero]

theorem join_chunks_fuel {α : Type} (B : Nat) (hB : 0 < B) :
    ∀ (fuel : Nat) (l : List α), l.length ≤ fuel →
      ((pyRange 0 l.length B).map fun i => (l.drop i).take B).flatten = l := by
  intro fuel
  induction fuel with
  | zero =>
    intro l hl
    have : l = [] := List.length_eq_zero.mp (by omega)
    subst this
    simp [pyRange_zero_nil B hB]
  | succ fuel ih =>
    intro l hl
    rcases Nat.eq_zero_or_pos l.length with h0 | h0
    · have : l = [] := List.length_eq_zero.mp h0
      subst this
      simp [pyRange_zero_nil B hB]
    · rw [pyRange_zero_cons l.length B hB h0]
      simp only [List.map_cons, List.map_map, List.flatten_cons, List.drop_zero]
      have e : ((pyRange 0 (l.length - B) B).map ((fun i => (l.drop i).take B) ∘ (B + ·)))
          = (pyRange 0 (l.drop B).length B).map fun i => ((l.drop B).drop i).take B := by
        rw [List.length_drop]
        apply List.map_congr_left
        intro i _
        simp [Function.comp, List.drop_drop, Nat.add_comm]
      rw [e, ih (l.drop B) (by rw [List.length_drop]; omega)]
      exact List.take_append_drop B l

theorem join_pyChunks {α : Type} (B : Nat) (hB : 0 < B) (l : List α) :
    ((pyRange 0 l.length B).map fun i => (l.drop i).take B).flatten = l :=
  join_chunks_fuel B hB l.length l (Nat.le_refl _)

theorem chunk_window_len {α : Type} (B : Nat) (hB : 0 < B) (l : List α) (w : Nat)
    (h : w + 1 < (l.length + B - 1) / B) :
    ((l.drop (B * w)).take B).length = B := by
  rw [List.length_take, List.length_drop]
  have h2 : (w + 2) * B ≤ l.length + B - 1 := (Nat.le_div_iff_mul_le hB).mp (by omega)
  have e : (w + 2) * B = B * w + (B + B) := by ring
  rw [e] at h2
  omega

/-! ## Claim theorems: chunking -/

/-- C2: for a year group of `K` items, the batch loop of `process_images`
produces exactly `⌈K / BATCH_SIZE⌉` batches; the 0-based window `w` gets
batch number `w + 1`; every batch except possibly the last has exactly
`BATCH_SIZE` items; and concatenating the batches in batch-number order
reproduces the year group exactly. -/
theorem year_batches_spec (l : List String) :
    (year_batches l).length = (l.length + BATCH_SIZE - 1) / BATCH_SIZE ∧
    (∀ w (h : w < (year_batches l).length), ((year_batches l)[w]).1 = w + 1) ∧
    (∀ w (h : w < (year_batches l).length), w + 1 < (year_batches l).length →
      ((year_batches l)[w]).2.length = BATCH_SIZE) ∧
    ((year_batches l).map Prod.snd).flatten = l := by
  have hB : 0 < BATCH_SIZE := by decide
  have hlen : (year_batches l).length = (l.length + BATCH_SIZE - 1) / BATCH_SIZE := by
    simp [year_batches, pyRange_length]
  refine ⟨hlen, ?_, ?_, ?_⟩
  · intro w h
    have h' : w < (pyRange 0 l.length BATCH_SIZE).length := by
      simpa [year_batches] using h
    simp only [year_batches, List.getElem_map, pyRange_getElem l.length BATCH_SIZE w h']
    rw [Nat.mul_div_cancel_left w hB]
  · intro w h hw
    have h' : w < (pyRange 0 l.length BATCH_SIZE).length := by
      simpa [year_batches] using h
    simp only [year_batches, List.getElem_map, pyRange_getElem l.length BATCH_SIZE w h']
    exact chunk_window_len BATCH_SIZE hB l w (by omega)
  · have e : (year_batches l).map Prod.snd
        = (pyRange 0 l.length BATCH_SIZE).map fun i => (l.drop i).take BATCH_SIZE := by
      simp [year_batches, List.map_map, Function.comp]
    rw [e]
    exact join_pyChunks BATCH_SIZE hB l

/-- Witness for C2 at a concrete year group. -/
theorem year_batches_spec_witness :
    ((year_batches ["a.jpg", "b.jpg", "c.jpg"]).get ⟨0, by decide⟩).1 = 1 ∧
    ((year_batches ["a.jpg", "b.jpg", "c.jpg"]).map Prod.snd).flatten
      = ["a.jpg", "b.jpg", "c.jpg"] :=
  ⟨(year_batches_spec ["a.jpg", "b.jpg", "c.jpg"]).2.1 0 (by decide),
   (year_batches_spec ["a.jpg", "b.jpg", "c.jpg"]).2.2.2⟩

/-- C5: for a batch of `N` items, the sub-batch loop partitions the
original item list (not only the successes) into `⌈N / SUB_BATCH_SIZE⌉`
consecutive windows of at most `SUB_BATCH_SIZE` items numbered from 1 in
list order; within a sub-batch, an item of the window appears exactly when
its resized file exists, and an item whose resized file is missing is
skipped. -/
theorem sub_batches_spec (images : List String) (resized : String → Bool) :
    (sub_batches images resized).length
      = (images.length + SUB_BATCH_SIZE - 1) / SUB_BATCH_SIZE ∧
    (∀ w (h : w < (sub_batches images resized).length),
      ((sub_batches images resized)[w]).1 = w + 1) ∧
    ((pyRange 0 images.length SUB_BATCH_SIZE).map
        fun j => (images.drop j).take SUB_BATCH_SIZE).flatten = images ∧
    (∀ w (h : w < (sub_batches images resized).length),
      ((images.drop (SUB_BATCH_SIZE * w)).take SUB_BATCH_SIZE).length ≤ SUB_BATCH_SIZE) ∧
    (∀ w (h : w < (sub_batches images resized).length) (im : String),
      im ∈ ((sub_batches images resized)[w]).2 ↔
        im ∈ (images.drop (SUB_BATCH_SIZE * w)).take SUB_BATCH_SIZE ∧ resized im = true) := by
  have hS : 0 < SUB_BATCH_SIZE := by decide
  refine ⟨by simp [sub_batches, pyRange_length], ?_, join_pyChunks SUB_BATCH_SIZE hS images,
    ?_, ?_⟩
  · intro w h
    have h' : w < (pyRange 0 images.length SUB_BATCH_SIZE).length := by
      simpa [sub_batches] using h
    simp only [sub_batches, List.getElem_map,
      pyRange_getElem images.length SUB_BATCH_SIZE w h']
    rw [Nat.mul_div_cancel_left w hS]
  · intro w h
    exact List.length_take_le _ _
  · intro w h im
    have h' : w < (pyRange 0 images.length SUB_BATCH_SIZE).length := by
      simpa [sub_batches] using h
    simp only [sub_batches, List.getElem_map,
      pyRange_getElem images.length SUB_BATCH_SIZE w h']
    exact List.mem_filter

/-- Witness for C5 at a concrete batch. -/
theorem sub_batches_spec_witness :
    ((sub_batches ["a.jpg", "b.jpg"] (fun im => im == "b.jpg")).get ⟨0, by decide⟩).1 = 1 ∧
    ("a.jpg" ∈ ((sub_batches ["a.jpg", "b.jpg"] (fun im => im == "b.jpg")).get ⟨0, by decide⟩).2 ↔
      "a.jpg" ∈ (["a.jpg", "b.jpg"].drop (SUB_BATCH_SIZE * 0)).take SUB_BATCH_SIZE ∧
        ("a.jpg" == "b.jpg") = true) :=
  ⟨(sub_batches_spec ["a.jpg", "b.jpg"] (fun im => im == "b.jpg")).2.1 0 (by decide),
   (sub_batches_spec ["a.jpg", "b.jpg"] (fun im => im == "b.jpg")).2.2.2.2 0 (by decide)
     "a.jpg"⟩

/-! ## Year-grouping lemmas -/

theorem insertAppend_flatten_perm (y im : String) (acc : List (String × List String)) :
    ((insertAppend y im acc).map Prod.snd).flatten.Perm
      (im :: (acc.map Prod.snd).flatten) := by
  induction acc with
  | nil => simp [insertAppend]
  | cons p rest ih =>
    rcases p with ⟨k, l⟩
    by_cases hk : k = y
    · have e : insertAppend y im ((k, l) :: rest) = (k, l ++ [im]) :: rest := by
        rw [insertAppend, if_pos hk]
      rw [e]
      simp only [List.map_cons, List.flatten_cons, List.append_assoc, List.singleton_append]
      exact List.perm_middle
    · have e : insertAppend y im ((k, l) :: rest) = (k, l) :: insertAppend y im rest := by
        rw [insertAppend, if_neg hk]
      rw [e]
      simp only [List.map_cons, List.flatten_cons]
      exact (List.Perm.append_left l ih).trans List.perm_middle

theorem insertAppend_sublist (y im : String) (V : List String) :
    ∀ (acc : List (String × List String)), (∀ g ∈ acc, g.2.Sublist V) →
      ∀ g ∈ insertAppend y im acc, g.2.Sublist (V ++ [im]) := by
  intro acc
  induction acc with
  | nil =>
    intro h g hg
    rw [insertAppend] at hg
    have e := List.mem_singleton.mp hg
    subst e
    exact List.sublist_append_right V [im]
  | cons p rest ih =>
    rcases p with ⟨k, l⟩
    intro h g hg
    rw [insertAppend] at hg
    by_cases hk : k = y
    · rw [if_pos hk] at hg
      rcases List.mem_cons.mp hg with e | hmem
      · subst e
        exact (h (k, l) (List.mem_cons_self _ _)).append (List.Sublist.refl [im])
      · exact (h g (List.mem_cons_of_mem _ hmem)).trans (List.sublist_append_left V [im])
    · rw [if_neg hk] at hg
      rcases List.mem_cons.mp hg with e | hmem
      · subst e
        exact (h (k, l) (List.mem_cons_self _ _)).trans (List.sublist_append_left V [im])
      · exact ih (fun q hq => h q (List.mem_cons_of_mem _ hq)) g hmem

theorem groupImages_invariant (dflt : String) (store : List (String × Meta)) :
    ∀ (images : List String) (acc groups : List (String × List String)) (V : List String),
      groupImages dflt store images acc = .ok groups →
      (∀ g ∈ acc, g.2.Sublist V) →
      ((groups.map Prod.snd).flatten).Perm ((acc.map Prod.snd).flatten ++ images) ∧
      (∀ g ∈ groups, g.2.Sublist (V ++ images)) := by
  intro images
  induction images with
  | nil =>
    intro acc groups V h hV
    simp only [groupImages, Except.ok.injEq] at h
    subst h
    exact ⟨by simp, by simpa using hV⟩
  | cons im rest ih =>
    intro acc groups V h hV
    rw [groupImages] at h
    cases hr : resolveYear dflt store im with
    | error e => rw [hr] at h; simp at h
    | ok y =>
      rw [hr] at h
      obtain ⟨hperm, hsub⟩ := ih (insertAppend y im acc) groups (V ++ [im]) h
        (insertAppend_sublist y im V acc hV)
      constructor
      · refine hperm.trans ?_
        refine ((insertAppend_flatten_perm y im acc).append_right rest).trans ?_
        exact List.perm_middle.symm
      · intro g hg
        have hs := hsub g hg
        rwa [List.append_assoc] at hs

/-- First part of C3, as one reusable statement. -/
theorem groupImages_run (dflt : String) (store : List (String × Meta))
    (images : List String) (groups : List (String × List String))
    (h : groupImages dflt store images [] = .ok groups) :
    ((groups.map Prod.snd).flatten).Perm images ∧ (∀ g ∈ groups, g.2.Sublist images) := by
  obtain ⟨hperm, hsub⟩ := groupImages_invariant dflt store images [] groups [] h (by simp)
  exact ⟨by simpa using hperm, fun g hg => by simpa using hsub g hg⟩

/-! ## Digits, slashes and the shape of a resolved bucket -/

theorem digitChar_ne_slash (k : Nat) : digitChar k ≠ '/' := by
  unfold digitChar
  split_ifs <;> decide

theorem natCharsAux_no_slash (fuel : Nat) : ∀ n, '/' ∉ natCharsAux fuel n := by
  induction fuel with
  | zero => intro n; simp [natCharsAux]
  | succ fuel ih =>
    intro n
    rw [natCharsAux]
    by_cases h : n < 10
    · rw [if_pos h]
      intro hm
      exact digitChar_ne_slash n (List.mem_singleton.mp hm).symm
    · rw [if_neg h]
      intro hm
      rcases List.mem_append.mp hm with hm | hm
      · exact ih (n / 10) hm
      · exact digitChar_ne_slash (n % 10) (List.mem_singleton.mp hm).symm

theorem padNat_no_slash (w n : Nat) : '/' ∉ padNat w n := by
  unfold padNat natChars
  intro hm
  rcases List.mem_append.mp hm with hm | hm
  · exact absurd (List.eq_of_mem_replicate hm) (by decide)
  · exact natCharsAux_no_slash (n + 1) n hm

theorem splitChar_ne_nil (sep : Char) (l : List Char) : splitChar sep l ≠ [] := by
  cases l with
  | nil => simp [splitChar]
  | cons c cs =>
    rw [splitChar]
    cases h : splitChar sep cs with
    | nil => simp
    | cons hh tt =>
      by_cases hc : c = sep
      · simp [hc]
      · simp [hc]

theorem splitChar_of_not_mem (sep : Char) : ∀ (l : List Char), sep ∉ l →
    splitChar sep l = [l] := by
  intro l
  induction l with
  | nil => intro _; rfl
  | cons c cs ih =>
    intro h
    have hc : c ≠ sep := fun e => h (by simp [e])
    rw [splitChar, ih (fun hm => h (List.mem_cons_of_mem _ hm))]
    simp [hc]

theorem splitChar_append (sep : Char) : ∀ (a b : List Char), sep ∉ a →
    splitChar sep (a ++ sep :: b) = a :: splitChar sep b := by
  intro a
  induction a with
  | nil =>
    intro b _
    rw [List.nil_append, splitChar]
    cases h : splitChar sep b with
    | nil => exact absurd h (splitChar_ne_nil sep b)
    | cons hh tt => simp
  | cons c cs ih =>
    intro b h
    have hc : c ≠ sep := fun e => h (by simp [e])
    rw [List.cons_append, splitChar, ih b (fun hm => h (List.mem_cons_of_mem _ hm))]
    simp [hc]

theorem splitChar_length_ge_two (sep : Char) : ∀ (l : List Char), sep ∈ l →
    2 ≤ (splitChar sep l).length := by
  intro l
  induction l with
  | nil => intro h; simp at h
  | cons c cs ih =>
    intro h
    rw [splitChar]
    cases hs : splitChar sep cs with
    | nil => exact absurd hs (splitChar_ne_nil sep cs)
    | cons hh tt =>
      by_cases hc : c = sep
      · simp only [if_pos hc, List.length_cons]
        omega
      · have hmem : sep ∈ cs := by
          rcases List.mem_cons.mp h with e | hmem
          · exact absurd e.symm hc
          · exact hmem
        have h2 := ih hmem
        rw [hs] at h2
        simp only [if_neg hc, List.length_cons] at h2 ⊢
        omega

theorem formatMY_toList (dt : PDateTime) :
    (formatMY dt).toList = padNat 2 dt.month ++ '/' :: padNat 4 dt.year := rfl

theorem formatMY_split (dt : PDateTime) :
    splitChar '/' (formatMY dt).toList = [padNat 2 dt.month, padNat 4 dt.year] := by
  rw [formatMY_toList, splitChar_append '/' _ _ (padNat_no_slash 2 dt.month),
    splitChar_of_not_mem '/' _ (padNat_no_slash 4 dt.year)]

theorem formatMY_count_slash (dt : PDateTime) : (formatMY dt).toList.count '/' = 1 := by
  rw [formatMY_toList, List.count_append, List.count_cons]
  have h1 : (padNat 2 dt.month).count '/' = 0 :=
    List.count_eq_zero.mpr (padNat_no_slash 2 dt.month)
  have h2 : (padNat 4 dt.year).count '/' = 0 :=
    List.count_eq_zero.mpr (padNat_no_slash 4 dt.year)
  simp [h1, h2]

/-! ## Reduction equations for `scanTags` -/

theorem scanTags_cons_none (m : Meta) (tag : String) (rest : List String)
    (hg : pyGet m tag = none) : scanTags m (tag :: rest) = scanTags m rest := by
  rw [scanTags, hg]

theorem scanTags_cons_nonstr (m : Meta) (tag : String) (rest : List String) (b : Bool)
    (hg : pyGet m tag = some (.nonstr b)) :
    scanTags m (tag :: rest)
      = if b then .error .attributeError else scanTags m rest := by
  rw [scanTags, hg]

theorem scanTags_cons_str (m : Meta) (tag : String) (rest : List String) (s : String)
    (hg : pyGet m tag = some (.str s)) :
    scanTags m (tag :: rest)
      = if s = "" then scanTags m rest
        else
          match parseValue s with
          | some dt => (scanTags m rest).map (dt :: ·)
          | none => scanTags m rest := by
  rw [scanTags, hg]

/-- Python's `<=` on strings: code-point lexicographic order. -/
def lexLe : List Char → List Char → Bool
  | [], _ => true
  | _ :: _, [] => false
  | a :: as, b :: bs => if a < b then true else if a = b then lexLe as bs else false

/-! ## Records whose values are all strings -/

/-- All values of a record are strings (the typed reading of
`MetadataRecord`). -/
def strOnly (m : Meta) : Bool :=
  m.all fun p => match p.2 with | .str _ => true | .nonstr _ => false

theorem pyGet_mem {α : Type} : ∀ (m : List (String × α)) (key : String) (v : α),
    pyGet m key = some v → ∃ k, (k, v) ∈ m := by
  intro m
  induction m with
  | nil => intro key v h; simp [pyGet] at h
  | cons p rest ih =>
    intro key v h
    rcases p with ⟨k0, v0⟩
    rw [pyGet] at h
    by_cases hk : k0 = key
    · rw [if_pos hk] at h
      have e : v0 = v := by injection h
      subst e
      exact ⟨k0, List.mem_cons_self _ _⟩
    · rw [if_neg hk] at h
      obtain ⟨k, hk2⟩ := ih key v h
      exact ⟨k, List.mem_cons_of_mem _ hk2⟩

/-- A record with only string values never raises from the tag scan. -/
theorem scanTags_strOnly (m : Meta) (hm : strOnly m = true) :
    ∀ tags : List String, ∃ ds, scanTags m tags = .ok ds := by
  intro tags
  induction tags with
  | nil => exact ⟨[], rfl⟩
  | cons tag rest ih =>
    obtain ⟨ds, hds⟩ := ih
    cases hg : pyGet m tag with
    | none => exact ⟨ds, by rw [scanTags_cons_none m tag rest hg]; exact hds⟩
    | some v =>
      cases v with
      | nonstr b =>
        obtain ⟨k, hk⟩ := pyGet_mem m tag (.nonstr b) hg
        have hb := List.all_eq_true.mp hm _ hk
        simp at hb
      | str s =>
        rw [scanTags_cons_str m tag rest s hg]
        by_cases he : s = ""
        · rw [if_pos he]
          exact ⟨ds, hds⟩
        · rw [if_neg he]
          cases parseValue s with
          | none => exact ⟨ds, hds⟩
          | some dt =>
            rw [hds]
            exact ⟨dt :: ds, rfl⟩

/-! ## `max` over parsed dates -/

theorem foldl_max_spec : ∀ (t : List PDateTime) (h : PDateTime),
    (t.foldl (fun a x => if toKey a < toKey x then x else a) h = h ∨
      t.foldl (fun a x => if toKey a < toKey x then x else a) h ∈ t) ∧
    toKey h ≤ toKey (t.foldl (fun a x => if toKey a < toKey x then x else a) h) ∧
    ∀ x ∈ t, toKey x ≤ toKey (t.foldl (fun a x => if toKey a < toKey x then x else a) h) := by
  intro t
  induction t with
  | nil => intro h; simp
  | cons x xs ih =>
    intro h
    rw [List.foldl_cons]
    by_cases hx : toKey h < toKey x
    · rw [if_pos hx]
      obtain ⟨hmem, hub, hall⟩ := ih x
      refine ⟨?_, le_of_lt (lt_of_lt_of_le hx hub), ?_⟩
      · rcases hmem with e | e
        · right; rw [e]; exact List.mem_cons_self _ _
        · right; exact List.mem_cons_of_mem _ e
      · intro y hy
        rcases List.mem_cons.mp hy with e | e
        · subst e; exact hub
        · exact hall y e
    · rw [if_neg hx]
      obtain ⟨hmem, hub, hall⟩ := ih h
      refine ⟨?_, hub, ?_⟩
      · rcases hmem with e | e
        · left; exact e
        · right; exact List.mem_cons_of_mem _ e
      · intro y hy
        rcases List.mem_cons.mp hy with e | e
        · subst e; exact le_trans (not_lt.mp hx) hub
        · exact hall y e

/-- Python's `max(dates)` returns a member that is a `≤`-upper bound of the
list (under datetime comparison). -/
theorem pyMax_spec (l : List PDateTime) (d : PDateTime) (h : pyMax l = some d) :
    d ∈ l ∧ ∀ x ∈ l, toKey x ≤ toKey d := by
  cases l with
  | nil => simp [pyMax] at h
  | cons x xs =>
    rw [pyMax] at h
    have e : xs.foldl (fun a x => if toKey a < toKey x then x else a) x = d := by
      injection h
    obtain ⟨hmem, hub, hall⟩ := foldl_max_spec xs x
    rw [e] at hmem hub hall
    constructor
    · rcases hmem with e2 | e2
      · rw [e2]; exact List.mem_cons_self _ _
      · exact List.mem_cons_of_mem _ e2
    · intro y hy
      rcases List.mem_cons.mp hy with e2 | e2
      · subst e2; exact hub
      · exact hall y e2

/-! ## Claim theorem: the year partition (C3) -/

/-- C3: for every corpus whose sorted item list is duplicate-free, grouping
by resolved year (when it completes) partitions the list: the groups'
multiset union is exactly the sorted list, every item occurs exactly once
across all groups, and each group is an order-preserving — hence still
sorted — sublist of the sorted corpus list. -/
theorem groupImages_partition (dflt : String) (store : List (String × Meta))
    (images : List String) (groups : List (String × List String))
    (hs : List.Pairwise (fun a b => lexLe a.toList b.toList = true) images)
    (hn : images.Nodup)
    (h : groupImages dflt store images [] = .ok groups) :
    ((groups.map Prod.snd).flatten).Perm images ∧
    (∀ im ∈ images, ((groups.map Prod.snd).flatten).count im = 1) ∧
    (∀ g ∈ groups, g.2.Sublist images ∧
      List.Pairwise (fun a b => lexLe a.toList b.toList = true) g.2) := by
  obtain ⟨hperm, hsub⟩ := groupImages_run dflt store images groups h
  refine ⟨hperm, ?_, ?_⟩
  · intro im him
    rw [hperm.count_eq]
    exact List.count_eq_one_of_mem hn him
  · intro g hg
    exact ⟨hsub g hg, List.Pairwise.sublist (hsub g hg) hs⟩

/-- Witness for C3 at a concrete two-item corpus. -/
theorem groupImages_partition_witness :
    ((([("2024", ["a.jpg", "b.jpg"])] : List (String × List String)).map
      Prod.snd).flatten).Perm ["a.jpg", "b.jpg"] :=
  (groupImages_partition "08/2024" [] ["a.jpg", "b.jpg"] [("2024", ["a.jpg", "b.jpg"])]
    (by decide) (by decide) (by decide)).1

/-! ## Reduction equations for `extract_date`, `resolveYear`, `groupImages` -/

theorem extract_date_error (dflt : String) (m : Meta) (e : PyExn)
    (hsc : scanTags m date_tags = .error e) : extract_date dflt m = .error e := by
  rw [extract_date, hsc]

theorem extract_date_ok (dflt : String) (m : Meta) (ds : List PDateTime)
    (hsc : scanTags m date_tags = .ok ds) :
    extract_date dflt m
      = match pyMax ds with
        | some latest => .ok (formatMY latest)
        | none => .ok dflt := by
  rw [extract_date, hsc]

theorem pyMax_eq_none (ds : List PDateTime) (h : pyMax ds = none) : ds = [] := by
  cases ds with
  | nil => rfl
  | cons a t => simp [pyMax] at h

theorem resolveYear_of_ok (dflt : String) (store : List (String × Meta)) (image : String)
    (ds : String) (h : extract_date dflt ((pyGet store (jpgKey image)).getD []) = .ok ds) :
    resolveYear dflt store image
      = match (splitChar '/' ds.toList).get? 1 with
        | some y => .ok (⟨y⟩ : String)
        | none => .error .indexError := by
  rw [resolveYear, h]

theorem groupImages_cons_ok (dflt : String) (store : List (String × Meta)) (image : String)
    (rest : List String) (acc : List (String × List String)) (y : String)
    (h : resolveYear dflt store image = .ok y) :
    groupImages dflt store (image :: rest) acc
      = groupImages dflt store rest (insertAppend y image acc) := by
  rw [groupImages, h]

theorem groupImages_cons_error (dflt : String) (store : List (String × Meta))
    (image : String) (rest : List String) (acc : List (String × List String)) (e : PyExn)
    (h : resolveYear dflt store image = .error e) :
    groupImages dflt store (image :: rest) acc = .error e := by
  rw [groupImages, h]

/-- The record looked up for any key in an all-string store (with the `{}`
default of line 141/212) is itself all-string. -/
theorem store_record_strOnly (store : List (String × Meta))
    (hst : ∀ p ∈ store, strOnly p.2 = true) (key : String) :
    strOnly ((pyGet store key).getD []) = true := by
  cases hg : pyGet store key with
  | none => rfl
  | some r =>
    obtain ⟨k, hk⟩ := pyGet_mem store key r hg
    exact hst (k, r) hk

/-- Shape of any non-raising `extract_date` result: the default verbatim,
or a bucket with exactly one `'/'`. -/
theorem extract_date_shape (dflt : String) (m : Meta) (r : String)
    (h : extract_date dflt m = .ok r) : r = dflt ∨ r.toList.count '/' = 1 := by
  cases hsc : scanTags m date_tags with
  | error e =>
    rw [extract_date_error dflt m e hsc] at h
    exact absurd h (by simp)
  | ok ds =>
    rw [extract_date_ok dflt m ds hsc] at h
    cases hmx : pyMax ds with
    | none =>
      rw [hmx] at h
      simp only [Except.ok.injEq] at h
      exact Or.inl h.symm
    | some d =>
      rw [hmx] at h
      simp only [Except.ok.injEq] at h
      exact Or.inr (h ▸ formatMY_count_slash d)

/-- With an all-string store and a default bucket containing no `'/'`, a
corpus with any item whose record yields zero parsed dates makes the
grouping loop raise `IndexError`. -/
theorem groupImages_indexError (dflt : String) (store : List (String × Meta))
    (hd : '/' ∉ dflt.toList) (hst : ∀ p ∈ store, strOnly p.2 = true) :
    ∀ (images : List String) (acc : List (String × List String)),
      (∃ im ∈ images, scanTags ((pyGet store (jpgKey im)).getD []) date_tags = .ok []) →
      groupImages dflt store images acc = .error .indexError := by
  intro images
  induction images with
  | nil =>
    intro acc h
    obtain ⟨im, him, _⟩ := h
    simp at him
  | cons im0 rest ih =>
    intro acc h
    have hso := store_record_strOnly store hst (jpgKey im0)
    obtain ⟨ds0, hds0⟩ := scanTags_strOnly _ hso date_tags
    have hext := extract_date_ok dflt _ ds0 hds0
    cases hmx : pyMax ds0 with
    | none =>
      have h0 : ds0 = [] := pyMax_eq_none ds0 hmx
      subst h0
      have he : extract_date dflt ((pyGet store (jpgKey im0)).getD []) = .ok dflt := by
        rw [hext]
        rfl
      have hr : resolveYear dflt store im0 = .error .indexError := by
        rw [resolveYear_of_ok dflt store im0 dflt he, splitChar_of_not_mem '/' _ hd]
        rfl
      exact groupImages_cons_error dflt store im0 rest acc .indexError hr
    | some d =>
      have he : extract_date dflt ((pyGet store (jpgKey im0)).getD [])
          = .ok (formatMY d) := by
        rw [hext, hmx]
      have hy : (splitChar '/' (formatMY d).toList).get? 1 = some (padNat 4 d.year) := by
        rw [formatMY_split]
        rfl
      have hr : resolveYear dflt store im0 = .ok ⟨padNat 4 d.year⟩ := by
        rw [resolveYear_of_ok dflt store im0 _ he, hy]
      rw [groupImages_cons_ok dflt store im0 rest acc _ hr]
      apply ih
      obtain ⟨im, him, hsim⟩ := h
      rcases List.mem_cons.mp him with e | e
      · subst e
        rw [hds0] at hsim
        have : ds0 = [] := by injection hsim
        subst this
        simp [pyMax] at hmx
      · exact ⟨im, e, hsim⟩

/-- With an all-string store and a default bucket containing a `'/'`, the
grouping loop always completes. -/
theorem groupImages_total (dflt : String) (store : List (String × Meta))
    (hd : '/' ∈ dflt.toList) (hst : ∀ p ∈ store, strOnly p.2 = true) :
    ∀ (images : List String) (acc : List (String × List String)),
      ∃ groups, groupImages dflt store images acc = .ok groups := by
  intro images
  induction images with
  | nil => intro acc; exact ⟨acc, rfl⟩
  | cons im0 rest ih =>
    intro acc
    have hso := store_record_strOnly store hst (jpgKey im0)
    obtain ⟨ds0, hds0⟩ := scanTags_strOnly _ hso date_tags
    have hext := extract_date_ok dflt _ ds0 hds0
    cases hmx : pyMax ds0 with
    | none =>
      have he : extract_date dflt ((pyGet store (jpgKey im0)).getD []) = .ok dflt := by
        rw [hext, hmx]
      have hlen := splitChar_length_ge_two '/' dflt.toList hd
      cases hq : (splitChar '/' dflt.toList).get? 1 with
      | none =>
        have := List.get?_eq_none.mp hq
        omega
      | some y =>
        have hr : resolveYear dflt store im0 = .ok ⟨y⟩ := by
          rw [resolveYear_of_ok dflt store im0 dflt he, hq]
        rw [groupImages_cons_ok dflt store im0 rest acc _ hr]
        exact ih _
    | some d =>
      have he : extract_date dflt ((pyGet store (jpgKey im0)).getD [])
          = .ok (formatMY d) := by
        rw [hext, hmx]
      have hy : (splitChar '/' (formatMY d).toList).get? 1 = some (padNat 4 d.year) := by
        rw [formatMY_split]
        rfl
      have hr : resolveYear dflt store im0 = .ok ⟨padNat 4 d.year⟩ := by
        rw [resolveYear_of_ok dflt store im0 _ he, hy]
      rw [groupImages_cons_ok dflt store im0 rest acc _ hr]
      exact ih _

/-! ## Claim theorem: bucket shape and the year-extraction IndexError (C9) -/

/-- C9: `extract_date` (when it does not raise) returns either a
one-slash `MM/YYYY` bucket or the configured default verbatim and
unvalidated; the year extraction `date_str.split("/")[1]` of
`process_images` is total when the default contains a `'/'`, and for a
corpus containing an item with no parseable date and a default without
`'/'`, the grouping step raises an uncaught `IndexError`. -/
theorem bucket_shape_and_year_indexing :
    (∀ (dflt : String) (m : Meta) (r : String),
      extract_date dflt m = .ok r → r = dflt ∨ r.toList.count '/' = 1) ∧
    (∀ (dflt : String) (store : List (String × Meta)) (images : List String)
      (acc : List (String × List String)),
      '/' ∉ dflt.toList → (∀ p ∈ store, strOnly p.2 = true) →
      (∃ im ∈ images, scanTags ((pyGet store (jpgKey im)).getD []) date_tags = .ok []) →
      groupImages dflt store images acc = .error .indexError) ∧
    (∀ (dflt : String) (store : List (String × Meta)) (images : List String)
      (acc : List (String × List String)),
      '/' ∈ dflt.toList → (∀ p ∈ store, strOnly p.2 = true) →
      ∃ groups, groupImages dflt store images acc = .ok groups) :=
  ⟨extract_date_shape,
   fun dflt store images acc hd hst hex =>
     groupImages_indexError dflt store hd hst images acc hex,
   fun dflt store images acc hd hst => groupImages_total dflt store hd hst images acc⟩

/-- Witness for C9: a one-item corpus with no metadata and the slash-free
default `"nodate"` crashes with `IndexError`. -/
theorem bucket_shape_and_year_indexing_witness :
    groupImages "nodate" [] ["a.jpg"] [] = .error .indexError :=
  bucket_shape_and_year_indexing.2.1 "nodate" [] ["a.jpg"] [] (by decide) (by simp)
    ⟨"a.jpg", by decide, by decide⟩

/-! ## Bounds on parsed fields (month ≤ 12, year ≤ 9999) -/

theorem dv_le_nine (c : Char) (h : isDig c = true) : dv c ≤ 9 := by
  rw [isDig, Bool.and_eq_true, decide_eq_true_eq, decide_eq_true_eq] at h
  have h0 : '0'.toNat = 48 := rfl
  unfold dv
  rw [h0]
  omega

theorem candY_le (s : List Char) : ∀ p ∈ candY s, p.1 ≤ 9999 := by
  intro p hp
  rcases s with _ | ⟨a, s⟩
  · simp [candY] at hp
  rcases s with _ | ⟨b, s⟩
  · simp [candY] at hp
  rcases s with _ | ⟨c, s⟩
  · simp [candY] at hp
  rcases s with _ | ⟨e, rest⟩
  · simp [candY] at hp
  rw [candY] at hp
  by_cases hd : isDig a = true ∧ isDig b = true ∧ isDig c = true ∧ isDig e = true
  · rw [if_pos hd] at hp
    have he := List.mem_singleton.mp hp
    subst he
    have d1 := dv_le_nine a hd.1
    have d2 := dv_le_nine b hd.2.1
    have d3 := dv_le_nine c hd.2.2.1
    have d4 := dv_le_nine e hd.2.2.2
    simp only
    omega
  · rw [if_neg hd] at hp
    simp at hp

theorem candNum_le (lo2 hi2 lo1 hi1 : Nat) (s : List Char) :
    ∀ p ∈ candNum lo2 hi2 lo1 hi1 s, p.1 ≤ hi2 ∨ p.1 ≤ hi1 := by
  intro p hp
  rcases s with _ | ⟨a, rest⟩
  · simp [candNum] at hp
  rcases rest with _ | ⟨b, rest2⟩
  · rw [candNum] at hp
    by_cases hd : isDig a = true ∧ lo1 ≤ dv a ∧ dv a ≤ hi1
    · rw [if_pos hd] at hp
      have he := List.mem_singleton.mp hp
      subst he
      exact Or.inr hd.2.2
    · rw [if_neg hd] at hp
      simp at hp
  · rw [candNum] at hp
    rcases List.mem_append.mp hp with hp | hp
    · by_cases hd : isDig a = true ∧ isDig b = true ∧ lo2 ≤ 10 * dv a + dv b ∧
          10 * dv a + dv b ≤ hi2
      · rw [if_pos hd] at hp
        have he := List.mem_singleton.mp hp
        subst he
        exact Or.inl hd.2.2.2
      · rw [if_neg hd] at hp
        simp at hp
    · by_cases hd : isDig a = true ∧ lo1 ≤ dv a ∧ dv a ≤ hi1
      · rw [if_pos hd] at hp
        have he := List.mem_singleton.mp hp
        subst he
        exact Or.inr hd.2.2
      · rw [if_neg hd] at hp
        simp at hp

theorem matchDirs_bounds : ∀ (fs : List Directive) (s : List Char) (acc acc2 : Acc),
    matchDirs fs s acc = some acc2 → acc.month ≤ 12 → acc.year ≤ 9999 →
    acc2.month ≤ 12 ∧ acc2.year ≤ 9999 := by
  intro fs
  induction fs with
  | nil =>
    intro s acc acc2 h hm hy
    cases s with
    | nil =>
      rw [matchDirs] at h
      have e : acc = acc2 := by injection h
      subst e
      exact ⟨hm, hy⟩
    | cons a rest =>
      rw [matchDirs] at h
      exact absurd h (by simp)
  | cons d fs ih =>
    intro s acc acc2 h hm hy
    cases d with
    | lit c =>
      cases s with
      | nil =>
        rw [matchDirs] at h
        exact absurd h (by simp)
      | cons a rest =>
        rw [matchDirs] at h
        by_cases he : a.toLower = c.toLower
        · rw [if_pos he] at h
          exact ih rest acc acc2 h hm hy
        · rw [if_neg he] at h
          exact absurd h (by simp)
    | ws =>
      rw [matchDirs] at h
      obtain ⟨s1, _, h1⟩ := List.exists_of_findSome?_eq_some h
      exact ih s1 acc acc2 h1 hm hy
    | Y =>
      rw [matchDirs] at h
      obtain ⟨p, hp, h1⟩ := List.exists_of_findSome?_eq_some h
      exact ih p.2 _ acc2 h1 hm (candY_le s p hp)
    | mo =>
      rw [matchDirs] at h
      obtain ⟨p, hp, h1⟩ := List.exists_of_findSome?_eq_some h
      have hb : p.1 ≤ 12 := by
        rcases candNum_le 1 12 1 9 s p hp with h2 | h2 <;> omega
      exact ih p.2 _ acc2 h1 hb hy
    | dy =>
      rw [matchDirs] at h
      obtain ⟨p, _, h1⟩ := List.exists_of_findSome?_eq_some h
      exact ih p.2 _ acc2 h1 hm hy
    | H =>
      rw [matchDirs] at h
      obtain ⟨p, _, h1⟩ := List.exists_of_findSome?_eq_some h
      exact ih p.2 _ acc2 h1 hm hy
    | Mi =>
      rw [matchDirs] at h
      obtain ⟨p, _, h1⟩ := List.exists_of_findSome?_eq_some h
      exact ih p.2 _ acc2 h1 hm hy
    | S =>
      rw [matchDirs] at h
      obtain ⟨p, _, h1⟩ := List.exists_of_findSome?_eq_some h
      exact ih p.2 _ acc2 h1 hm hy
    | z =>
      rw [matchDirs] at h
      obtain ⟨p, _, h1⟩ := List.exists_of_findSome?_eq_some h
      exact ih p.2 _ acc2 h1 hm hy

theorem parseValue_bounds (s : String) (d : PDateTime) (h : parseValue s = some d) :
    d.month ≤ 12 ∧ 1 ≤ d.year ∧ d.year ≤ 9999 := by
  rw [parseValue, tryFormats] at h
  obtain ⟨f, _, hf⟩ := List.exists_of_findSome?_eq_some h
  rcases Option.bind_eq_some.mp hf with ⟨acc2, hmd, hv⟩
  obtain ⟨hmo, hyr⟩ := matchDirs_bounds f _ Acc.init acc2 hmd (by decide) (by decide)
  rw [validate] at hv
  by_cases hc : 1 ≤ acc2.year ∧ acc2.day ≤ daysInMonth acc2.year acc2.month ∧
      offOk acc2.off = true
  · rw [if_pos hc] at hv
    have e : (⟨acc2.year, acc2.month, acc2.day, acc2.hour, acc2.minute, acc2.second,
        acc2.off.getD 0⟩ : PDateTime) = d := by injection hv
    subst e
    exact ⟨hmo, hc.1, hyr⟩
  · rw [if_neg hc] at hv
    exact absurd hv (by simp)

theorem scanTags_bounds (m : Meta) : ∀ (tags : List String) (ds : List PDateTime),
    scanTags m tags = .ok ds → ∀ d ∈ ds, d.month ≤ 12 ∧ 1 ≤ d.year ∧ d.year ≤ 9999 := by
  intro tags
  induction tags with
  | nil =>
    intro ds h d hd
    rw [scanTags] at h
    have e : ([] : List PDateTime) = ds := by injection h
    subst e
    simp at hd
  | cons tag rest ih =>
    intro ds h d hd
    cases hg : pyGet m tag with
    | none =>
      rw [scanTags_cons_none m tag rest hg] at h
      exact ih ds h d hd
    | some v =>
      cases v with
      | nonstr b =>
        rw [scanTags_cons_nonstr m tag rest b hg] at h
        by_cases hb : b = true
        · rw [if_pos hb] at h
          exact absurd h (by simp)
        · rw [if_neg hb] at h
          exact ih ds h d hd
      | str s =>
        rw [scanTags_cons_str m tag rest s hg] at h
        by_cases he : s = ""
        · rw [if_pos he] at h
          exact ih ds h d hd
        · rw [if_neg he] at h
          cases hp : parseValue s with
          | none =>
            rw [hp] at h
            exact ih ds h d hd
          | some dt =>
            rw [hp] at h
            cases hrest : scanTags m rest with
            | error e =>
              rw [hrest] at h
              exact absurd h (by simp [Except.map])
            | ok ds2 =>
              rw [hrest] at h
              have e2 : dt :: ds2 = ds := by simpa [Except.map] using h
              subst e2
              rcases List.mem_cons.mp hd with e3 | e3
              · subst e3
                exact parseValue_bounds s d hp
              · exact ih ds2 hrest d e3

theorem natCharsAux_length_le : ∀ (fuel n k : Nat), 1 ≤ k → n < 10 ^ k →
    (natCharsAux fuel n).length ≤ k := by
  intro fuel
  induction fuel with
  | zero => intro n k _ _; simp [natCharsAux]
  | succ fuel ih =>
    intro n k hk hn
    rw [natCharsAux]
    by_cases h : n < 10
    · rw [if_pos h]
      simpa using hk
    · rw [if_neg h]
      have hk2 : 2 ≤ k := by
        rcases Nat.lt_or_ge k 2 with hc | hc
        · exfalso
          have e1 : k = 1 := by omega
          rw [e1, pow_one] at hn
          omega
        · exact hc
      have hdiv : n / 10 < 10 ^ (k - 1) := by
        rw [Nat.div_lt_iff_lt_mul (by omega)]
        calc n < 10 ^ k := hn
          _ = 10 ^ (k - 1) * 10 := by
            rw [← Nat.pow_succ]
            congr 1
            omega
      have hrec := ih (n / 10) (k - 1) (by omega) hdiv
      simp only [List.length_append, List.length_singleton]
      omega

theorem natChars_len_le_two (n : Nat) (h : n ≤ 99) : (natChars n).length ≤ 2 := by
  have h10 : (10 : Nat) ^ 2 = 100 := by norm_num
  exact natCharsAux_length_le (n + 1) n 2 (by omega) (by omega)

theorem natChars_len_le_four (n : Nat) (h : n ≤ 9999) : (natChars n).length ≤ 4 := by
  have h10 : (10 : Nat) ^ 4 = 10000 := by norm_num
  exact natCharsAux_length_le (n + 1) n 4 (by omega) (by omega)

theorem padNat_length (w n : Nat) (h : (natChars n).length ≤ w) :
    (padNat w n).length = w := by
  rw [padNat, List.length_append, List.length_replicate]
  omega

/-! ## Claim theorem: latest date wins (C1) -/

/-- C1: for every metadata record whose tag scan completes (any record
mapping tag names to string values does) with at least one parsed date,
`extract_date` returns the maximum of all successfully parsed dates across
all tags — aware datetimes compared by the instant they denote, ties kept
at the earliest-listed — formatted `%m/%Y`: two-character zero-padded
month, slash, four-character zero-padded year; tag priority order never
overrides a later absolute date from a lower-priority tag. -/
theorem extract_date_latest (dflt : String) (m : Meta) (ds : List PDateTime)
    (hsc : scanTags m date_tags = .ok ds) (hne : ds ≠ []) :
    ∃ d ∈ ds, (∀ x ∈ ds, toKey x ≤ toKey d) ∧
      extract_date dflt m = .ok ⟨padNat 2 d.month ++ '/' :: padNat 4 d.year⟩ ∧
      (padNat 2 d.month).length = 2 ∧ (padNat 4 d.year).length = 4 := by
  cases hmx : pyMax ds with
  | none => exact absurd (pyMax_eq_none ds hmx) hne
  | some d =>
    obtain ⟨hmem, hub⟩ := pyMax_spec ds d hmx
    obtain ⟨hmo, hy1, hy2⟩ := scanTags_bounds m date_tags ds hsc d hmem
    refine ⟨d, hmem, hub, ?_, ?_, ?_⟩
    · rw [extract_date_ok dflt m ds hsc, hmx]
      rfl
    · exact padNat_length 2 d.month (natChars_len_le_two d.month (by omega))
    · exact padNat_length 4 d.year (natChars_len_le_four d.year (by omega))

/-- Witness for C1: the spec's own example — the later `XMP:CreateDate`
wins over the higher-priority `EXIF:DateTimeOriginal`. -/
theorem extract_date_latest_witness :
    ∃ d ∈ [(⟨2022, 5, 1, 10, 0, 0, 0⟩ : PDateTime), ⟨2023, 1, 1, 0, 0, 0, 0⟩],
      (∀ x ∈ [(⟨2022, 5, 1, 10, 0, 0, 0⟩ : PDateTime), ⟨2023, 1, 1, 0, 0, 0, 0⟩],
        toKey x ≤ toKey d) ∧
      extract_date "08/2024"
          [("EXIF:DateTimeOriginal", .str "2022:05:01 10:00:00"),
           ("XMP:CreateDate", .str "2023-01-01T00:00:00")]
        = .ok ⟨padNat 2 d.month ++ '/' :: padNat 4 d.year⟩ ∧
      (padNat 2 d.month).length = 2 ∧ (padNat 4 d.year).length = 4 :=
  extract_date_latest "08/2024"
    [("EXIF:DateTimeOriginal", .str "2022:05:01 10:00:00"),
     ("XMP:CreateDate", .str "2023-01-01T00:00:00")]
    [⟨2022, 5, 1, 10, 0, 0, 0⟩, ⟨2023, 1, 1, 0, 0, 0, 0⟩] (by decide) (by decide)

/-! ## Claim C7: default-bucket semantics -/

/-- C7 counterexample: with the stock default `"08/2024"`, a record whose
single tag parses to 15 August 2024 makes `extract_date` return the
default string even though one date parsed, so "returns the default if and
only if zero dates parse" is false as stated. -/
theorem extract_date_default_iff_cex :
    scanTags [("EXIF:DateTimeOriginal", PyVal.str "2024:08:15")] date_tags
      = .ok [⟨2024, 8, 15, 0, 0, 0, 0⟩] ∧
    extract_date DEFAULT_DATE [("EXIF:DateTimeOriginal", PyVal.str "2024:08:15")]
      = .ok DEFAULT_DATE := by
  constructor
  · decide
  · decide

/-- C7 (amended): for every record whose tag scan completes (any record
mapping tag names to string values does), `extract_date` is total (returns
some string), a tag value parsing under no format is simply skipped while
the other tags are still scanned, and it returns the configured default if
zero dates parse; the returned value equals the default exactly when zero
dates parse or the latest parsed date happens to format to the default
string. -/
theorem extract_date_default_semantics (dflt : String) (m : Meta) (ds : List PDateTime)
    (hsc : scanTags m date_tags = .ok ds) :
    (∃ r, extract_date dflt m = .ok r) ∧
    (∀ (tag : String) (rest : List String) (s : String),
      pyGet m tag = some (.str s) → parseValue s = none →
      scanTags m (tag :: rest) = scanTags m rest) ∧
    (ds = [] → extract_date dflt m = .ok dflt) ∧
    (extract_date dflt m = .ok dflt ↔
      ds = [] ∨ ∃ d, pyMax ds = some d ∧ formatMY d = dflt) := by
  have hext := extract_date_ok dflt m ds hsc
  refine ⟨?_, ?_, ?_, ?_⟩
  · cases hmx : pyMax ds with
    | none => exact ⟨dflt, by rw [hext, hmx]⟩
    | some d => exact ⟨formatMY d, by rw [hext, hmx]⟩
  · intro tag rest s hg hp
    rw [scanTags_cons_str m tag rest s hg]
    by_cases he : s = ""
    · rw [if_pos he]
    · rw [if_neg he, hp]
  · intro he
    subst he
    rw [hext]
    rfl
  · cases hmx : pyMax ds with
    | none =>
      have he : ds = [] := pyMax_eq_none ds hmx
      subst he
      constructor
      · intro _
        exact Or.inl rfl
      · intro _
        rw [hext]
        rfl
    | some d =>
      have hgoal : extract_date dflt m = .ok (formatMY d) := by
        rw [hext, hmx]
      rw [hgoal]
      constructor
      · intro he
        have e : formatMY d = dflt := by injection he
        exact Or.inr ⟨d, rfl, e⟩
      · intro he
        rcases he with he | ⟨d2, hd2, he2⟩
        · subst he
          simp [pyMax] at hmx
        · have e : d = d2 := Option.some.inj (hmx ▸ hd2)
          rw [e, he2]

/-- Witness for C7 (amended), at a record with one unparsable tag value. -/
theorem extract_date_default_semantics_witness :
    (∃ r, extract_date "08/2024" [("EXIF:DateTimeOriginal", PyVal.str "not a date")]
      = .ok r) ∧
    extract_date "08/2024" [("EXIF:DateTimeOriginal", PyVal.str "not a date")]
      = .ok "08/2024" :=
  have h := extract_date_default_semantics "08/2024"
    [("EXIF:DateTimeOriginal", PyVal.str "not a date")] [] (by decide)
  ⟨h.1, h.2.2.1 rfl⟩

/-! ## Claim C8: fractional-second stripping and timezone offsets -/

/-- C8 counterexample: the claim says the `+02:00` offset of
`"2023-01-01T00:00:00.5+02:00"` survives parsing; the code cuts the value
at the first `'.'`, so the offset is discarded and the parse is naive,
normalized to UTC (offset 0, not +7200 seconds). -/
theorem offset_after_fraction_cex :
    stripFrac "2023-01-01T00:00:00.5+02:00" = "2023-01-01T00:00:00" ∧
    parseValue "2023-01-01T00:00:00.5+02:00" = some ⟨2023, 1, 1, 0, 0, 0, 0⟩ ∧
    ((0 : Int) ≠ 7200) := by
  refine ⟨?_, ?_, ?_⟩
  · decide
  · decide
  · decide

theorem splitChar_cons_eq (sep c : Char) (cs hh : List Char) (tt : List (List Char))
    (hs : splitChar sep cs = hh :: tt) :
    splitChar sep (c :: cs) = if c = sep then [] :: hh :: tt else (c :: hh) :: tt := by
  rw [splitChar, hs]

theorem splitChar_head (sep : Char) : ∀ (l h : List Char) (t : List (List Char)),
    splitChar sep l = h :: t → h = l.takeWhile (fun c => c != sep) := by
  intro l
  induction l with
  | nil =>
    intro h t he
    rw [splitChar] at he
    have e1 : ([] : List Char) = h := by injection he
    subst e1
    rfl
  | cons c cs ih =>
    intro h t he
    cases hs : splitChar sep cs with
    | nil => exact absurd hs (splitChar_ne_nil sep cs)
    | cons hh tt =>
      rw [splitChar_cons_eq sep c cs hh tt hs] at he
      by_cases hc : c = sep
      · rw [if_pos hc] at he
        have e1 : ([] : List Char) = h := by injection he
        subst e1
        subst hc
        simp [List.takeWhile]
      · rw [if_neg hc] at he
        have e1 : c :: hh = h := by injection he
        subst e1
        have e2 := ih hh tt hs
        have hb : (c != sep) = true := bne_iff_ne.mpr hc
        simp only [List.takeWhile, hb, e2]

/-- C8 (amended): line 108 truncates each tag value at the first `'.'` —
removing the fractional seconds and everything after them, including any
timezone offset that follows — before the formats are tried; a value
containing no `'.'` is parsed whole, so only there can an offset survive.
Concretely, the fractional value with offset parses naive and is
normalized to UTC, while the same value without fractional seconds keeps
its offset. -/
theorem stripFrac_semantics :
    (∀ s : String, (stripFrac s).toList = s.toList.takeWhile (fun c => c != '.')) ∧
    (∀ s : String, '.' ∉ s.toList → stripFrac s = s) ∧
    parseValue "2023-01-01T00:00:00.5+02:00" = some ⟨2023, 1, 1, 0, 0, 0, 0⟩ ∧
    parseValue "2023-01-01T00:00:00+02:00" = some ⟨2023, 1, 1, 0, 0, 0, 7200⟩ := by
  refine ⟨?_, ?_, by decide, by decide⟩
  · intro s
    cases hs : splitChar '.' s.toList with
    | nil => exact absurd hs (splitChar_ne_nil '.' s.toList)
    | cons h t =>
      have he : stripFrac s = ⟨h⟩ := by rw [stripFrac, hs]
      rw [he]
      exact splitChar_head '.' s.toList h t hs
  · intro s hs
    rw [stripFrac, splitChar_of_not_mem '.' s.toList hs]
    rfl

/-- Witness for C8 (amended), at a dot-free value. -/
theorem stripFrac_semantics_witness :
    stripFrac "2023:05:01" = "2023:05:01" :=
  stripFrac_semantics.2.1 "2023:05:01" (by decide)

/-! ## Manifest-cell lemmas -/

theorem writeRow_frame (ws : Manifest) (idx : Nat) (image dateStr : String) (r c : Nat)
    (h : r ≠ idx + 11) : writeRow ws idx image dateStr (r, c) = ws (r, c) := by
  unfold writeRow setCell
  simp [h]

theorem writeRow_self (ws : Manifest) (idx : Nat) (image dateStr : String) (c : Nat) :
    writeRow ws idx image dateStr (idx + 11, c)
      = if c = 6 then some (.str "") else if c = 5 then some (.str image)
        else if c = 4 then some (.str dateStr) else if c = 3 then some (.str image)
        else if c = 2 then some (.str image) else if c = 1 then some (.num (idx + 1))
        else ws (idx + 11, c) := by
  unfold writeRow setCell
  simp [Prod.mk.injEq]

/-- The date string `process_image` computes for an item (meaningful when
the extraction succeeds). -/
def extractedDate (dflt : String) (store : List (String × Meta)) (image : String) : String :=
  match extract_date dflt ((pyGet store (jpgKey image)).getD []) with
  | .ok d => d
  | .error _ => dflt

theorem process_image_fst (dflt : String) (store : List (String × Meta))
    (resize : String → ResizeOut) (image : String) (idx : Nat) (ws : Manifest) :
    (process_image dflt store resize image idx ws).1
      = if itemRes dflt store resize image = .retTrue
        then writeRow ws idx image (extractedDate dflt store image) else ws := by
  rw [process_image, itemRes, extractedDate]
  cases hE : extract_date dflt ((pyGet store (jpgKey image)).getD []) with
  | error e => rfl
  | ok d =>
    cases hR : resize image with
    | notFound => rfl
    | raised => rfl
    | ok => rfl

theorem process_image_snd (dflt : String) (store : List (String × Meta))
    (resize : String → ResizeOut) (image : String) (idx : Nat) (ws : Manifest) :
    (process_image dflt store resize image idx ws).2 = itemRes dflt store resize image := by
  rw [process_image, itemRes]
  cases extract_date dflt ((pyGet store (jpgKey image)).getD []) with
  | error e => rfl
  | ok d =>
    cases resize image with
    | notFound => rfl
    | raised => rfl
    | ok => rfl

theorem process_image_frame (dflt : String) (store : List (String × Meta))
    (resize : String → ResizeOut) (image : String) (idx : Nat) (ws : Manifest)
    (r c : Nat) (h : r ≠ idx + 11) :
    (process_image dflt store resize image idx ws).1 (r, c) = ws (r, c) := by
  rw [process_image_fst]
  by_cases hs : itemRes dflt store resize image = .retTrue
  · rw [if_pos hs]
    exact writeRow_frame ws idx image _ r c h
  · rw [if_neg hs]

theorem process_image_cell_congr (dflt : String) (store : List (String × Meta))
    (resize : String → ResizeOut) (image : String) (idx c : Nat) (ws ws2 : Manifest)
    (h : ws (idx + 11, c) = ws2 (idx + 11, c)) :
    (process_image dflt store resize image idx ws).1 (idx + 11, c)
      = (process_image dflt store resize image idx ws2).1 (idx + 11, c) := by
  rw [process_image_fst, process_image_fst]
  by_cases hs : itemRes dflt store resize image = .retTrue
  · rw [if_pos hs, if_pos hs, writeRow_self, writeRow_self]
    split_ifs <;> first | rfl | exact h
  · rw [if_neg hs, if_neg hs]
    exact h

theorem process_batch_ws_cons (dflt : String) (store : List (String × Meta))
    (resize : String → ResizeOut) (images : List String) (i : Nat) (rest : List Nat)
    (ws : Manifest) :
    process_batch_ws dflt store resize images (i :: rest) ws
      = process_batch_ws dflt store resize images rest
          ((process_image dflt store resize (images.getD i "") i ws).1) := rfl

theorem process_batch_ws_frame (dflt : String) (store : List (String × Meta))
    (resize : String → ResizeOut) (images : List String) :
    ∀ (order : List Nat) (ws : Manifest) (r c : Nat),
      (∀ idx ∈ order, r ≠ idx + 11) →
      process_batch_ws dflt store resize images order ws (r, c) = ws (r, c) := by
  intro order
  induction order with
  | nil => intro ws r c _; rfl
  | cons i rest ih =>
    intro ws r c h
    rw [process_batch_ws_cons]
    rw [ih _ r c (fun j hj => h j (List.mem_cons_of_mem _ hj))]
    exact process_image_frame dflt store resize _ i ws r c (h i (List.mem_cons_self _ _))

theorem process_batch_ws_cell (dflt : String) (store : List (String × Meta))
    (resize : String → ResizeOut) (images : List String) :
    ∀ (order : List Nat) (ws : Manifest) (idx r c : Nat),
      order.Nodup → idx ∈ order → r = idx + 11 →
      process_batch_ws dflt store resize images order ws (r, c)
        = (process_image dflt store resize (images.getD idx "") idx ws).1 (r, c) := by
  intro order
  induction order with
  | nil =>
    intro ws idx r c _ hm _
    simp at hm
  | cons i rest ih =>
    intro ws idx r c hnd hm hr
    subst hr
    rw [process_batch_ws_cons]
    rcases List.mem_cons.mp hm with e | e
    · subst e
      have hres : ∀ j ∈ rest, idx + 11 ≠ j + 11 := by
        intro j hj heq
        have hij : idx = j := by omega
        exact (List.nodup_cons.mp hnd).1 (hij ▸ hj)
      exact process_batch_ws_frame dflt store resize images rest _ (idx + 11) c hres
    · have hi : i ≠ idx := by
        intro e2
        exact (List.nodup_cons.mp hnd).1 (e2 ▸ e)
      rw [ih _ idx (idx + 11) c (List.nodup_cons.mp hnd).2 e rfl]
      exact process_image_cell_congr dflt store resize _ idx c _ ws
        (process_image_frame dflt store resize _ i ws (idx + 11) c (by omega))

/-- Full characterization of the manifest after the worker pool: the value
of any cell depends only on the row's owning item, not on the completion
order. -/
theorem process_batch_ws_char (dflt : String) (store : List (String × Meta))
    (resize : String → ResizeOut) (images : List String) (order : List Nat)
    (ws : Manifest) (hord : order.Perm (List.range images.length)) (r c : Nat) :
    process_batch_ws dflt store resize images order ws (r, c)
      = if 11 ≤ r ∧ r - 11 < images.length then
          (process_image dflt store resize (images.getD (r - 11) "") (r - 11) ws).1 (r, c)
        else ws (r, c) := by
  have hnd : order.Nodup := (hord.nodup_iff).mpr (List.nodup_range _)
  by_cases hin : 11 ≤ r ∧ r - 11 < images.length
  · rw [if_pos hin]
    exact process_batch_ws_cell dflt store resize images order ws (r - 11) r c hnd
      (hord.mem_iff.mpr (List.mem_range.mpr hin.2)) (by omega)
  · rw [if_neg hin]
    apply process_batch_ws_frame
    intro j hj heq
    have hjr : j < images.length := List.mem_range.mp (hord.mem_iff.mp hj)
    exact hin (by omega)

theorem process_image_resize_congr (dflt : String) (store : List (String × Meta))
    (resize1 resize2 : String → ResizeOut) (image : String) (idx : Nat) (ws : Manifest)
    (h : resize1 image = resize2 image) :
    process_image dflt store resize1 image idx ws
      = process_image dflt store resize2 image idx ws := by
  rw [process_image, process_image, h]

theorem getD_ne_of_nodup (l : List String) (hnd : l.Nodup) (i j : Nat)
    (hi : i < l.length) (hj : j < l.length) (hij : i ≠ j) :
    l.getD i "" ≠ l.getD j "" := by
  rw [List.getD_eq_getElem l "" hi, List.getD_eq_getElem l "" hj]
  intro he
  exact hij ((List.Nodup.getElem_inj_iff hnd).mp he)

/-! ## Claim theorem: rows are assigned by item index (C4) -/

/-- C4: after the worker pool of `process_batch` finishes, in whatever
completion order (any permutation of the submitted indices), the cells of
row `r` with `11 ≤ r < 11 + n` are exactly what `process_image` writes for
the item at index `r - 11` of the batch's item list over the template, and
all other rows keep their template values; the right-hand side does not
mention the order, so the assignment is independent of worker completion
order. -/
theorem manifest_rows_by_index (dflt : String) (store : List (String × Meta))
    (resize : String → ResizeOut) (images : List String) (order : List Nat)
    (ws : Manifest) (hord : order.Perm (List.range images.length)) (r c : Nat) :
    process_batch_ws dflt store resize images order ws (r, c)
      = if 11 ≤ r ∧ r - 11 < images.length then
          (process_image dflt store resize (images.getD (r - 11) "") (r - 11) ws).1 (r, c)
        else ws (r, c) :=
  process_batch_ws_char dflt store resize images order ws hord r c

/-- Witness for C4 at a one-item batch. -/
theorem manifest_rows_by_index_witness :
    process_batch_ws "08/2024" [] (fun _ => .ok) ["a.jpg"] [0]
        (fun _ => (none : Option CellVal)) (11, 4)
      = if 11 ≤ 11 ∧ 11 - 11 < (["a.jpg"] : List String).length then
          (process_image "08/2024" [] (fun _ => .ok)
            ((["a.jpg"] : List String).getD (11 - 11) "") (11 - 11)
            (fun _ => (none : Option CellVal))).1 (11, 4)
        else (fun _ => (none : Option CellVal)) (11, 4) :=
  manifest_rows_by_index "08/2024" [] (fun _ => .ok) ["a.jpg"] [0]
    (fun _ => (none : Option CellVal)) (by decide) 11 4

/-! ## Claim theorem: per-item failure semantics (C6) -/

/-- C6: if date resolution raises, or the source file is missing
(`FileNotFoundError` from the resize), `process_image` returns `False` for
that item and writes no manifest cell at all; the six cells of row
`idx + 11` are written exactly when the call returns `True`; and one
item's failure never affects any other row of the batch — two runs whose
resize behaviour differs only at item `j` agree on every cell outside row
`j + 11`, in any completion order. -/
theorem process_image_failure_semantics (dflt : String) (store : List (String × Meta))
    (resize : String → ResizeOut) (image : String) (idx : Nat) (ws : Manifest) :
    (∀ e, extract_date dflt ((pyGet store (jpgKey image)).getD []) = .error e →
      process_image dflt store resize image idx ws = (ws, .retFalse)) ∧
    (resize image = .notFound →
      process_image dflt store resize image idx ws = (ws, .retFalse)) ∧
    ((process_image dflt store resize image idx ws).2 ≠ .retTrue →
      (process_image dflt store resize image idx ws).1 = ws) ∧
    ((process_image dflt store resize image idx ws).2 = .retTrue →
      (process_image dflt store resize image idx ws).1
        = writeRow ws idx image (extractedDate dflt store image)) ∧
    (∀ (images : List String) (order : List Nat) (resize1 resize2 : String → ResizeOut)
      (j r c : Nat), images.Nodup → j < images.length →
      (∀ im : String, im ≠ images.getD j "" → resize1 im = resize2 im) →
      order.Perm (List.range images.length) → r ≠ j + 11 →
      process_batch_ws dflt store resize1 images order ws (r, c)
        = process_batch_ws dflt store resize2 images order ws (r, c)) := by
  refine ⟨?_, ?_, ?_, ?_, ?_⟩
  · intro e he
    rw [process_image, he]
  · intro hnf
    rw [process_image]
    cases hE : extract_date dflt ((pyGet store (jpgKey image)).getD []) with
    | error e => rfl
    | ok d => rw [hnf]
  · intro hne
    rw [process_image_snd] at hne
    rw [process_image_fst, if_neg hne]
  · intro htr
    rw [process_image_snd] at htr
    rw [process_image_fst, if_pos htr]
  · intro images order resize1 resize2 j r c hnd hj hagree hord hne
    rw [process_batch_ws_char dflt store resize1 images order ws hord r c,
      process_batch_ws_char dflt store resize2 images order ws hord r c]
    by_cases hin : 11 ≤ r ∧ r - 11 < images.length
    · rw [if_pos hin, if_pos hin,
        process_image_resize_congr dflt store resize1 resize2 _ (r - 11) ws
          (hagree _ (getD_ne_of_nodup images hnd (r - 11) j hin.2 hj (by omega)))]
    · rw [if_neg hin, if_neg hin]

/-- Witness for C6: a missing source file yields `return False` and an
untouched worksheet. -/
theorem process_image_failure_semantics_witness :
    process_image "08/2024" [] (fun _ => .notFound) "a.jpg" 0
        (fun _ => (none : Option CellVal))
      = ((fun _ => (none : Option CellVal)), .retFalse) :=
  (process_image_failure_semantics "08/2024" [] (fun _ => .notFound) "a.jpg" 0
    (fun _ => (none : Option CellVal))).2.1 rfl

/-! ## Claim C10: the metadata-key derivation -/

/-- Does the character list contain the substring `".jpg"`? -/
def hasJpg : List Char → Bool
  | '.' :: 'j' :: 'p' :: 'g' :: _ => true
  | _ :: rest => hasJpg rest
  | [] => false

/-- When the only `".jpg"` occurrence is the trailing extension, the
replace-all of line 141/212 yields exactly the stem. -/
theorem stripJpg_stem : ∀ (stem : List Char), hasJpg stem = false →
    stripJpg (stem ++ ['.', 'j', 'p', 'g']) = stem := by
  intro stem
  induction stem with
  | nil => intro _; rfl
  | cons c rest ih =>
    intro h
    have hno : ∀ t : List Char, c = '.' →
        rest ++ ['.', 'j', 'p', 'g'] = 'j' :: 'p' :: 'g' :: t → False := by
      intro t hc he
      subst hc
      rcases rest with _ | ⟨r1, rest⟩
      · simp at he
      rcases rest with _ | ⟨r2, rest⟩
      · simp at he
      rcases rest with _ | ⟨r3, rest⟩
      · simp at he
      · simp only [List.cons_append, List.cons.injEq] at he
        obtain ⟨e1, e2, e3, _⟩ := he
        subst e1
        subst e2
        subst e3
        rw [show hasJpg ('.' :: 'j' :: 'p' :: 'g' :: rest) = true from rfl] at h
        simp at h
    rw [List.cons_append, stripJpg.eq_2 c _ hno]
    have hrest : hasJpg rest = false := by
      by_cases hcase : ∀ t : List Char, c = '.' → rest = 'j' :: 'p' :: 'g' :: t → False
      · rw [hasJpg.eq_2 c rest hcase] at h
        exact h
      · push_neg at hcase
        obtain ⟨t, hc, he, -⟩ := hcase
        subst hc
        subst he
        rw [show hasJpg ('.' :: 'j' :: 'p' :: 'g' :: t) = true from rfl] at h
        simp at h
    rw [ih hrest]

theorem process_image_ok_ok (dflt : String) (store : List (String × Meta))
    (resize : String → ResizeOut) (image : String) (idx : Nat) (ws : Manifest)
    (d : String)
    (he : extract_date dflt ((pyGet store (jpgKey image)).getD []) = .ok d)
    (hr : resize image = .ok) :
    process_image dflt store resize image idx ws = (writeRow ws idx image d, .retTrue) := by
  rw [process_image, he, hr]

/-- C10: both the Transformer (line 141) and the Partitioner (line 212)
derive the metadata key as `image.replace('.jpg', '')`, which removes
every occurrence of `".jpg"`, not only a trailing extension: for a
filename whose only occurrence is the final extension the key is the
stem, but `"a.jpgb.jpg"` is looked up under `"ab"`; and since both sites
use the identical derivation, the date written to the item's manifest row
and the bucket used for its year grouping are computed from the same
record `(pyGet store (jpgKey image)).getD []`. -/
theorem metadata_key_derivation :
    (∀ stem : List Char, hasJpg stem = false →
      stripJpg (stem ++ ['.', 'j', 'p', 'g']) = stem) ∧
    jpgKey "a.jpgb.jpg" = "ab" ∧
    (∀ (dflt : String) (store : List (String × Meta)) (resize : String → ResizeOut)
      (image : String) (idx : Nat) (ws : Manifest) (d : String),
      extract_date dflt ((pyGet store (jpgKey image)).getD []) = .ok d →
      resize image = .ok →
      (process_image dflt store resize image idx ws).1 (idx + 11, 4) = some (.str d) ∧
      resolveYear dflt store image
        = match (splitChar '/' d.toList).get? 1 with
          | some y => .ok (⟨y⟩ : String)
          | none => .error .indexError) := by
  refine ⟨stripJpg_stem, by decide, ?_⟩
  intro dflt store resize image idx ws d he hr
  constructor
  · rw [process_image_ok_ok dflt store resize image idx ws d he hr]
    show writeRow ws idx image d (idx + 11, 4) = some (.str d)
    rw [writeRow_self]
    norm_num
  · exact resolveYear_of_ok dflt store image d he

/-- Witness for C10 at a plain stem and the double-occurrence filename. -/
theorem metadata_key_derivation_witness :
    stripJpg (['a'] ++ ['.', 'j', 'p', 'g']) = ['a'] ∧ jpgKey "a.jpgb.jpg" = "ab" :=
  ⟨metadata_key_derivation.1 ['a'] (by decide), metadata_key_derivation.2.1⟩

example : parseValue "2022:05:01 10:00:00" = some ⟨2022, 5, 1, 10, 0, 0, 0⟩ := by decide
example : parseValue "2023-01-01T00:00:00" = some ⟨2023, 1, 1, 0, 0, 0, 0⟩ := by decide
example : parseValue "2023-01-01T00:00:00+02:00" = some ⟨2023, 1, 1, 0, 0, 0, 7200⟩ := by
  decide
example : parseValue "2023-01-01T00:00:00.5+02:00" = some ⟨2023, 1, 1, 0, 0, 0, 0⟩ := by
  decide
example : parseValue "2023:02:29" = none := by decide
example : parseValue "2024:02:29" = some ⟨2024, 2, 29, 0, 0, 0, 0⟩ := by decide
example :
    extract_date "08/2024"
      [("EXIF:DateTimeOriginal", .str "2022:05:01 10:00:00"),
       ("XMP:CreateDate", .str "2023-01-01T00:00:00")] = .ok "01/2023" := by decide
example : extract_date "08/2024" [] = .ok "08/2024" := by decide

end CopyrightBatcher
